import Mathlib

/-! Galois scheduling substrate: ranges and the GFIFO worklist.

A shallow embedding of `galois/runtime/Range.h` (classes `LocalRange`,
`StandardRange` and `SpecificRange`) and of `Galois/WorkList/GFifo.h` (class
`GFIFO`), followed by theorems about them.

Positions of an iteration space are natural numbers (the iterators of
`SpecificRange` are built from the `uint32_t` entries of the table and are only
compared, never added to).  Thread ids and thread counts are `uint32_t` in the
source; the only arithmetic on them is `my_thread_id + 1`, which is taken modulo
`2^32`.
-/

namespace galois
namespace runtime

/-- The class `SpecificRange` of `Range.h`: the requested range
`[global_begin, global_end)` and the table `thread_beginnings`.  The table is a
raw pointer in the source; here it is the list of the entries that may be read,
and a read past its end has no value. -/
structure SpecificRange where
  global_begin : Nat
  global_end : Nat
  thread_beginnings : List Nat
deriving Repr, DecidableEq

/-- The five branches of the `else` part of `SpecificRange::block_pair`
(`Range.h`, lines 167-192), in the order of the source. -/
inductive Clause where
  | contained
  | leftClip
  | rightClip
  | bothSides
  | noOverlap
deriving Repr, DecidableEq

/-- The branch taken by the `if / else if` chain of lines 167-192: the
conditions are those of the source, tested in the order of the source. -/
def SpecificRange.general_clause (global_begin global_end local_begin local_end : Nat) : Clause :=
  if local_begin ≥ global_begin ∧ local_end ≤ global_end then Clause.contained
  else if local_end ≤ global_end ∧ local_end > global_begin then Clause.leftClip
  else if local_begin ≥ global_begin ∧ local_begin < global_end then Clause.rightClip
  else if local_begin ≤ global_begin ∧ local_end ≥ global_end then Clause.bothSides
  else Clause.noOverlap

/-- The `else` part of `SpecificRange::block_pair` (lines 167-192): the native
slice `[local_begin, local_end)` reconciled with the requested range. -/
def SpecificRange.general_path (global_begin global_end local_begin local_end : Nat) : Nat × Nat :=
  if local_begin ≥ global_begin ∧ local_end ≤ global_end then
    (local_begin, local_end)
  else if local_end ≤ global_end ∧ local_end > global_begin then
    (global_begin, local_end)
  else if local_begin ≥ global_begin ∧ local_begin < global_end then
    (local_begin, global_end)
  else if local_begin ≤ global_begin ∧ local_end ≥ global_end then
    (global_begin, global_end)
  else
    (global_end, global_end)

/-- The method `SpecificRange::block_pair` (lines 144-194) for the thread
`my_thread_id` out of `total_threads`.  The result is `none` when a table read
is out of the table or when `assert(local_begin <= local_end)` fails. -/
def SpecificRange.block_pair (r : SpecificRange) (my_thread_id total_threads : Nat) :
    Option (Nat × Nat) :=
  match r.thread_beginnings[my_thread_id]? with
  | none => none
  | some local_begin =>
    match r.thread_beginnings[(my_thread_id + 1) % 2 ^ 32]? with
    | none => none
    | some local_end =>
      if local_begin ≤ local_end then
        match r.thread_beginnings[total_threads]? with
        | none => none
        | some last =>
          if last = r.global_end ∧ r.global_begin = 0 then
            some (local_begin, local_end)
          else
            some (SpecificRange.general_path r.global_begin r.global_end local_begin local_end)
      else none

/-- The invariant of the boundary table for `T` threads: `T + 1` entries, each
no larger than the next. -/
def TableInv (b : List Nat) (T : Nat) : Prop :=
  b.length = T + 1 ∧ ∀ i, i < T → b.getD i 0 ≤ b.getD (i + 1) 0

instance (b : List Nat) (T : Nat) : Decidable (TableInv b T) := by
  unfold TableInv; infer_instance

/-- Membership of a position in the half-open range given by a pair. -/
def InPair (p : Nat) (r : Nat × Nat) : Prop := r.1 ≤ p ∧ p < r.2

instance (p : Nat) (r : Nat × Nat) : Decidable (InPair p r) := by
  unfold InPair; infer_instance

/-- The test of a branch of the general path, as the specification words it:
`contained`, left clip, right clip, both sides, and the final `else`, which has
no test of its own. -/
def Clause.holds (c : Clause) (global_begin global_end local_begin local_end : Nat) : Bool :=
  match c with
  | Clause.contained => decide (local_begin ≥ global_begin ∧ local_end ≤ global_end)
  | Clause.leftClip => decide (local_end ≤ global_end ∧ local_end > global_begin)
  | Clause.rightClip => decide (local_begin ≥ global_begin ∧ local_begin < global_end)
  | Clause.bothSides => decide (local_begin ≤ global_begin ∧ local_end ≥ global_end)
  | Clause.noOverlap => true

/-- The pair a branch of the general path prescribes, as the specification
words it. -/
def Clause.result (c : Clause) (global_begin global_end local_begin local_end : Nat) : Nat × Nat :=
  match c with
  | Clause.contained => (local_begin, local_end)
  | Clause.leftClip => (global_begin, local_end)
  | Clause.rightClip => (local_begin, global_end)
  | Clause.bothSides => (global_begin, global_end)
  | Clause.noOverlap => (global_end, global_end)

/-- The priority order of the specification: contained, left clip, right clip,
both sides, no overlap. -/
def spec_order : List Clause :=
  [Clause.contained, Clause.leftClip, Clause.rightClip, Clause.bothSides, Clause.noOverlap]

/-- First match wins, following the specification: the pair prescribed by the
first branch of `order` whose test holds, and `(global_end, global_end)` when
none does. -/
def spec_first_match (order : List Clause) (global_begin global_end local_begin local_end : Nat) :
    Nat × Nat :=
  match order.find? (fun c => c.holds global_begin global_end local_begin local_end) with
  | some c => c.result global_begin global_end local_begin local_end
  | none => (global_end, global_end)

end runtime

/-- The size of part `i` when `N` elements are divided among `num` threads: the
first `N mod num` threads get one element more than the others. -/
def block_part_size (N num i : Nat) : Nat :=
  N / num + (if i < N % num then 1 else 0)

/-- The offset at which the part of thread `id` starts: the sizes of the parts
of the threads before it, added up. -/
def block_part_start (N num : Nat) : Nat → Nat
  | 0 => 0
  | id + 1 => block_part_start N num id + block_part_size N num id

/-- Modelled from the spec: the function `galois::block_range` of
`galois/gstl.h`, which is not among the sources.  It divides the `N = e - b`
positions of `[b, e)` into `num` parts whose sizes differ by at most one, the
first `N mod num` threads getting one extra element, and returns the contiguous
half-open sub-range owned by thread `id`. -/
def block_range (b e id num : Nat) : Nat × Nat :=
  (b + block_part_start (e - b) num id,
   b + block_part_start (e - b) num id + block_part_size (e - b) num id)

namespace runtime

/-- The container a `LocalRange` refers to: its global bounds and the bounds of
the slice it keeps for each thread. -/
structure Container where
  begin : Nat
  «end» : Nat
  local_begin : Nat → Nat
  local_end : Nat → Nat

/-- The class `LocalRange` of `Range.h` (lines 41-73). -/
structure LocalRange where
  container : Container

/-- The method `LocalRange::begin` (line 54). -/
def LocalRange.begin (r : LocalRange) : Nat := r.container.begin

/-- The method `LocalRange::end` (line 55). -/
def LocalRange.«end» (r : LocalRange) : Nat := r.container.«end»

/-- The method `LocalRange::block_pair` (lines 60-62), `tid` being the value of
`substrate::ThreadPool::getTID()`. -/
def LocalRange.block_pair (r : LocalRange) (tid activeThreads : Nat) : Nat × Nat :=
  galois.block_range r.begin r.«end» tid activeThreads

/-- The method `LocalRange::local_pair` (lines 64-66). -/
def LocalRange.local_pair (r : LocalRange) (tid : Nat) : Nat × Nat :=
  (r.container.local_begin tid, r.container.local_end tid)

/-- The class `StandardRange` of `Range.h` (lines 78-107): the bounds `ii` and
`ei`. -/
structure StandardRange where
  ii : Nat
  ei : Nat
deriving Repr, DecidableEq

/-- The method `StandardRange::begin` (line 91). -/
def StandardRange.begin (r : StandardRange) : Nat := r.ii

/-- The method `StandardRange::end` (line 92). -/
def StandardRange.«end» (r : StandardRange) : Nat := r.ei

/-- The method `StandardRange::block_pair` (lines 94-96), `tid` being the value
of `substrate::ThreadPool::getTID()`. -/
def StandardRange.block_pair (r : StandardRange) (tid activeThreads : Nat) : Nat × Nat :=
  galois.block_range r.ii r.ei tid activeThreads

/-- The method `StandardRange::local_pair` (lines 98-100). -/
def StandardRange.local_pair (r : StandardRange) (tid activeThreads : Nat) : Nat × Nat :=
  r.block_pair tid activeThreads

/-- The method `StandardRange::block_begin` (line 105). -/
def StandardRange.block_begin (r : StandardRange) (tid activeThreads : Nat) : Nat :=
  (r.block_pair tid activeThreads).1

/-- The method `StandardRange::block_end` (line 106). -/
def StandardRange.block_end (r : StandardRange) (tid activeThreads : Nat) : Nat :=
  (r.block_pair tid activeThreads).2

/-- The method `StandardRange::local_begin` (line 102). -/
def StandardRange.local_begin (r : StandardRange) (tid activeThreads : Nat) : Nat :=
  r.block_begin tid activeThreads

/-- The method `StandardRange::local_end` (line 103). -/
def StandardRange.local_end (r : StandardRange) (tid activeThreads : Nat) : Nat :=
  r.block_end tid activeThreads

/-- The sub-ranges `f 0, ..., f (T - 1)` are contiguous half-open ranges that
split `[lo, hi)`: each is well formed, the first starts at `lo`, each ends where
the next starts, the last ends at `hi`, no position lies in two of them, and
the positions of `[lo, hi)` are exactly those lying in one of them. -/
def IsBlockPartition (f : Nat → Nat × Nat) (T lo hi : Nat) : Prop :=
  (∀ t, t < T → (f t).1 ≤ (f t).2) ∧
  (f 0).1 = lo ∧
  (∀ t, t + 1 < T → (f t).2 = (f (t + 1)).1) ∧
  (f (T - 1)).2 = hi ∧
  (∀ t1 t2 p, t1 < T → t2 < T → InPair p (f t1) → InPair p (f t2) → t1 = t2) ∧
  (∀ p, (lo ≤ p ∧ p < hi) ↔ ∃ t, t < T ∧ InPair p (f t))

end runtime
end galois

namespace Galois
namespace WorkList

/-- Modelled from the spec: the double-ended sequence `Galois::gdeque` of
`Galois/gdeque.h`, which is not among the sources.  Of it the worklist uses
`push_back`, `front`, `pop_front` and `empty`; the items are kept oldest
first. -/
structure gdeque (T : Type) where
  items : List T
deriving Repr, DecidableEq

/-- Appends `val` at the back. -/
def gdeque.push_back {T : Type} (d : gdeque T) (val : T) : gdeque T :=
  { items := d.items ++ [val] }

/-- The item at the front, if there is one. -/
def gdeque.front {T : Type} (d : gdeque T) : Option T :=
  d.items.head?

/-- Removes the item at the front. -/
def gdeque.pop_front {T : Type} (d : gdeque T) : gdeque T :=
  { items := d.items.tail }

/-- Whether the sequence holds no item. -/
def gdeque.empty {T : Type} (d : gdeque T) : Bool :=
  d.items.isEmpty

/-- The class `GFIFO` of `GFifo.h`: one `gdeque`.  Every method brackets its
body between `lock()` and `unlock()` of the inherited `PaddedLock`, so a call is
one atomic step on the deque, which is how the methods are given here. -/
structure GFIFO (T : Type) where
  wl : gdeque T
deriving Repr, DecidableEq

/-- A freshly constructed worklist. -/
def GFIFO.init {T : Type} : GFIFO T :=
  { wl := { items := [] } }

/-- The method `push(const value_type& val)` (lines 50-54). -/
def GFIFO.push {T : Type} (q : GFIFO T) (val : T) : GFIFO T :=
  { wl := q.wl.push_back val }

/-- The method `push(Iter b, Iter e)` (lines 56-62): the loop
`while (b != e) wl.push_back(*b++)`, the span `[b, e)` being given as the list
of its items. -/
def GFIFO.push_range {T : Type} (q : GFIFO T) : List T → GFIFO T
  | [] => q
  | x :: rest => GFIFO.push_range { wl := q.wl.push_back x } rest

/-- The method `push_initial(RangeTy range)` (lines 64-68), `tid` being the
value of `Runtime::LL::getTID()` in the calling thread and `range` the items of
`[range.begin(), range.end())`. -/
def GFIFO.push_initial {T : Type} (q : GFIFO T) (tid : Nat) (range : List T) : GFIFO T :=
  if tid = 0 then q.push_range range else q

/-- The method `pop()` (lines 70-79): the returned optional and the worklist
after the call. -/
def GFIFO.pop {T : Type} (q : GFIFO T) : Option T × GFIFO T :=
  if !q.wl.empty then
    (q.wl.front, { wl := q.wl.pop_front })
  else
    (none, q)

/-- Pushes the items of `xs` one call of `push` at a time, in order. -/
def GFIFO.push_each {T : Type} (q : GFIFO T) (xs : List T) : GFIFO T :=
  xs.foldl GFIFO.push q

/-- Calls `pop` `n` times in a row: the results in call order and the worklist
after the last call. -/
def GFIFO.pop_times {T : Type} (q : GFIFO T) : Nat → List (Option T) × GFIFO T
  | 0 => ([], q)
  | n + 1 =>
    let res := GFIFO.pop_times (q.pop).2 n
    ((q.pop).1 :: res.1, res.2)

/-- One call on the worklist. -/
inductive Op (T : Type) where
  | push (val : T)
  | push_range (xs : List T)
  | pop
deriving Repr, DecidableEq

/-- The items a call hands to the worklist. -/
def Op.pushed {T : Type} : Op T → List T
  | Op.push val => [val]
  | Op.push_range xs => xs
  | Op.pop => []

/-- Runs one call: the item it returned, if any, and the worklist after it. -/
def GFIFO.step {T : Type} (q : GFIFO T) : Op T → Option T × GFIFO T
  | Op.push val => (none, q.push val)
  | Op.push_range xs => (none, q.push_range xs)
  | Op.pop => q.pop

/-- Runs the calls of `ops` in order: the items returned by the successful
pops, in order, and the final worklist. -/
def GFIFO.run {T : Type} (q : GFIFO T) : List (Op T) → List T × GFIFO T
  | [] => ([], q)
  | op :: ops =>
    let res := GFIFO.run (q.step op).2 ops
    ((q.step op).1.toList ++ res.1, res.2)

/-- All items handed to the worklist by the calls of `ops`. -/
def pushed_items {T : Type} (ops : List (Op T)) : List T :=
  (ops.map Op.pushed).flatten

/-- Calls `push_initial range` once for every thread id of `tids`, in the order
of `tids`. -/
def GFIFO.push_initial_all {T : Type} (q : GFIFO T) (range : List T) (tids : List Nat) : GFIFO T :=
  tids.foldl (fun w tid => w.push_initial tid range) q

end WorkList
end Galois

namespace galois
namespace runtime

/-! ## Table reads -/

theorem block_pair_reads (r : SpecificRange) (t T lb le last : Nat)
    (ht : t + 1 < 2 ^ 32)
    (h1 : r.thread_beginnings[t]? = some lb)
    (h2 : r.thread_beginnings[t + 1]? = some le)
    (h3 : lb ≤ le)
    (h4 : r.thread_beginnings[T]? = some last) :
    r.block_pair t T =
      if last = r.global_end ∧ r.global_begin = 0 then some (lb, le)
      else some (SpecificRange.general_path r.global_begin r.global_end lb le) := by
  unfold SpecificRange.block_pair
  rw [Nat.mod_eq_of_lt ht]
  simp only [h1, h2, h4, h3, if_true]

theorem TableInv.read {b : List Nat} {T : Nat} (h : TableInv b T) {i : Nat} (hi : i ≤ T) :
    b[i]? = some (b.getD i 0) := by
  have hlt : i < b.length := by rw [h.1]; omega
  simp [List.getD, List.getElem?_eq_getElem hlt]

theorem TableInv.mono {b : List Nat} {T : Nat} (h : TableInv b T) {i j : Nat}
    (hij : i ≤ j) (hj : j ≤ T) : b.getD i 0 ≤ b.getD j 0 := by
  induction j with
  | zero =>
    have : i = 0 := by omega
    subst this
    exact le_refl _
  | succ k ih =>
    rcases Nat.eq_or_lt_of_le hij with heq | hlt
    · rw [heq]
    · exact le_trans (ih (by omega) (by omega)) (h.2 k (by omega))

/-- Under the table invariant the three reads of `block_pair` succeed and its
assertion holds, so the call reduces to the choice between the fast path and
the general path. -/
theorem block_pair_of_inv (r : SpecificRange) (t T : Nat) (hT32 : T < 2 ^ 32)
    (hinv : TableInv r.thread_beginnings T) (ht : t < T) :
    r.block_pair t T =
      if r.thread_beginnings.getD T 0 = r.global_end ∧ r.global_begin = 0 then
        some (r.thread_beginnings.getD t 0, r.thread_beginnings.getD (t + 1) 0)
      else
        some (SpecificRange.general_path r.global_begin r.global_end
          (r.thread_beginnings.getD t 0) (r.thread_beginnings.getD (t + 1) 0)) :=
  block_pair_reads r t T _ _ _ (by omega) (hinv.read (by omega)) (hinv.read (by omega))
    (hinv.2 t ht) (hinv.read (le_refl T))

/-! ## The case analysis of the general path -/

theorem general_path_eq_clause (gb ge lb le : Nat) :
    SpecificRange.general_path gb ge lb le =
      match SpecificRange.general_clause gb ge lb le with
      | Clause.contained => (lb, le)
      | Clause.leftClip => (gb, le)
      | Clause.rightClip => (lb, ge)
      | Clause.bothSides => (gb, ge)
      | Clause.noOverlap => (ge, ge) := by
  unfold SpecificRange.general_path SpecificRange.general_clause
  split_ifs <;> rfl

theorem mem_general_path (gb ge lb le p : Nat) (hl : lb ≤ le) (hg : gb ≤ ge) :
    InPair p (SpecificRange.general_path gb ge lb le) ↔
      (lb ≤ p ∧ p < le) ∧ (gb ≤ p ∧ p < ge) := by
  unfold SpecificRange.general_path InPair
  split_ifs <;> simp only <;> omega

/-- Every position between the first and the last entry of a non-decreasing
table lies in the native slice of some thread. -/
theorem table_locate_exists (f : Nat → Nat) (p : Nat) :
    ∀ T : Nat, (∀ i, i < T → f i ≤ f (i + 1)) → f 0 ≤ p → p < f T →
      ∃ t, t < T ∧ f t ≤ p ∧ p < f (t + 1) := by
  intro T
  induction T with
  | zero => intro _ h0 hT; omega
  | succ k ih =>
    intro hmono h0 hT
    by_cases hk : p < f k
    · obtain ⟨t, ht, h1, h2⟩ := ih (fun i hi => hmono i (by omega)) h0 hk
      exact ⟨t, by omega, h1, h2⟩
    · exact ⟨k, by omega, by omega, hT⟩

/-- The native slices of two different threads have no position in common. -/
theorem table_locate_unique {b : List Nat} {T : Nat} (h : TableInv b T) {p t1 t2 : Nat}
    (h1 : t1 < T) (h2 : t2 < T)
    (m1 : b.getD t1 0 ≤ p ∧ p < b.getD (t1 + 1) 0)
    (m2 : b.getD t2 0 ≤ p ∧ p < b.getD (t2 + 1) 0) : t1 = t2 := by
  rcases Nat.lt_trichotomy t1 t2 with hlt | heq | hgt
  · have := h.mono (i := t1 + 1) (j := t2) (by omega) (by omega)
    omega
  · exact heq
  · have := h.mono (i := t2 + 1) (j := t1) (by omega) (by omega)
    omega

/-- Under the table invariant and for a request that is not inverted, the
range returned for thread `t` holds exactly the positions common to the native
slice of `t` and the requested range. -/
theorem mem_block_pair (r : SpecificRange) (t T : Nat) (hT32 : T < 2 ^ 32)
    (hinv : TableInv r.thread_beginnings T) (ht : t < T)
    (hg : r.global_begin ≤ r.global_end) :
    ∃ pr, r.block_pair t T = some pr ∧
      ∀ p, InPair p pr ↔
        (r.thread_beginnings.getD t 0 ≤ p ∧ p < r.thread_beginnings.getD (t + 1) 0) ∧
        (r.global_begin ≤ p ∧ p < r.global_end) := by
  rw [block_pair_of_inv r t T hT32 hinv ht]
  split_ifs with hfast
  · refine ⟨_, rfl, fun p => ?_⟩
    have hm := hinv.mono (i := t + 1) (j := T) (by omega) (le_refl T)
    unfold InPair
    simp only
    omega
  · exact ⟨_, rfl, fun p => mem_general_path _ _ _ _ p (hinv.2 t ht) hg⟩

/-! ## Claims on `SpecificRange::block_pair` -/

/-- C1: for a table of `T + 1` non-decreasing entries (`T >= 1`) and a request
with `b[0] <= global_begin <= global_end <= b[T]`, every position of
`[global_begin, global_end)` lies in the range returned by `block_pair` for
exactly one thread id below `T`, and every thread below `T` gets a range all of
whose positions are in `[global_begin, global_end)`. -/
theorem block_pair_partitions_request (r : SpecificRange) (T : Nat)
    (_hT : 1 ≤ T) (hT32 : T < 2 ^ 32)
    (hinv : TableInv r.thread_beginnings T)
    (hlo : r.thread_beginnings.getD 0 0 ≤ r.global_begin)
    (hg : r.global_begin ≤ r.global_end)
    (hhi : r.global_end ≤ r.thread_beginnings.getD T 0) :
    (∀ p, r.global_begin ≤ p → p < r.global_end →
      ∃! t, t < T ∧ ∃ pr, r.block_pair t T = some pr ∧ InPair p pr) ∧
    (∀ t, t < T → ∃ pr, r.block_pair t T = some pr ∧
      ∀ p, InPair p pr → r.global_begin ≤ p ∧ p < r.global_end) := by
  constructor
  · intro p hp1 hp2
    obtain ⟨t, ht, hs1, hs2⟩ :=
      table_locate_exists (fun i => r.thread_beginnings.getD i 0) p T hinv.2
        (by simp only; omega) (by simp only; omega)
    refine ⟨t, ⟨ht, ?_⟩, ?_⟩
    · obtain ⟨pr, hpr, hmem⟩ := mem_block_pair r t T hT32 hinv ht hg
      exact ⟨pr, hpr, (hmem p).2 ⟨⟨hs1, hs2⟩, hp1, hp2⟩⟩
    · rintro u ⟨hu, pr, hpr, hin⟩
      obtain ⟨pr2, hpr2, hmem⟩ := mem_block_pair r u T hT32 hinv hu hg
      rw [hpr] at hpr2
      cases hpr2
      exact table_locate_unique hinv hu ht ((hmem p).1 hin).1 ⟨hs1, hs2⟩
  · intro t ht
    obtain ⟨pr, hpr, hmem⟩ := mem_block_pair r t T hT32 hinv ht hg
    exact ⟨pr, hpr, fun p hin => ((hmem p).1 hin).2⟩

/-- Witness of C1: table `[0, 3, 7, 10]`, three threads, request `(5, 10)`. -/
theorem block_pair_partitions_request_witness :
    (∀ p, 5 ≤ p → p < 10 →
      ∃! t, t < 3 ∧ ∃ pr, (SpecificRange.mk 5 10 [0, 3, 7, 10]).block_pair t 3 = some pr ∧
        InPair p pr) ∧
    (∀ t, t < 3 → ∃ pr, (SpecificRange.mk 5 10 [0, 3, 7, 10]).block_pair t 3 = some pr ∧
      ∀ p, InPair p pr → 5 ≤ p ∧ p < 10) :=
  block_pair_partitions_request (SpecificRange.mk 5 10 [0, 3, 7, 10]) 3
    (by decide) (by decide) (by decide) (by decide) (by decide) (by decide)

/-- C4: when the fast-path test fails and `local_begin < global_begin <
local_end <= global_end`, `block_pair` returns `(global_begin, local_end)`;
the left-clip branch is the one taken exactly in that situation, and whenever
the `contained` test fails while `local_end <= global_end && local_end >
global_begin` holds, `local_begin < global_begin`. -/
theorem block_pair_left_clip (r : SpecificRange) (t T lb le last : Nat)
    (hT32 : T < 2 ^ 32) (ht : t < T)
    (hb : r.thread_beginnings[t]? = some lb)
    (he : r.thread_beginnings[t + 1]? = some le)
    (hl : r.thread_beginnings[T]? = some last)
    (hfast : ¬ (last = r.global_end ∧ r.global_begin = 0)) :
    (lb < r.global_begin → r.global_begin < le → le ≤ r.global_end →
      r.block_pair t T = some (r.global_begin, le)) ∧
    (SpecificRange.general_clause r.global_begin r.global_end lb le = Clause.leftClip ↔
      lb < r.global_begin ∧ r.global_begin < le ∧ le ≤ r.global_end) ∧
    (¬ (lb ≥ r.global_begin ∧ le ≤ r.global_end) →
      (le ≤ r.global_end ∧ le > r.global_begin) → lb < r.global_begin) := by
  refine ⟨fun h1 h2 h3 => ?_, ?_, fun h1 h2 => by omega⟩
  · rw [block_pair_reads r t T lb le last (by omega) hb he (by omega) hl, if_neg hfast]
    unfold SpecificRange.general_path
    rw [if_neg (by omega), if_pos (by omega)]
  · unfold SpecificRange.general_clause
    split_ifs <;> simp <;> omega

/-- Witness of C4: table `[0, 3, 7, 10]`, request `(5, 10)`, thread 1 gets
`(5, 7)`. -/
theorem block_pair_left_clip_witness :
    (SpecificRange.mk 5 10 [0, 3, 7, 10]).block_pair 1 3 = some (5, 7) :=
  (block_pair_left_clip (SpecificRange.mk 5 10 [0, 3, 7, 10]) 1 3 3 7 10
    (by decide) (by decide) (by decide) (by decide) (by decide) (by decide)).1
    (by decide) (by decide) (by decide)

/-- C5: when the fast-path test fails and `global_begin <= local_begin <
global_end < local_end`, `block_pair` returns `(local_begin, global_end)`;
the right-clip branch is the one taken exactly in that situation, and whenever
the `contained` and left-clip tests fail while `local_begin >= global_begin &&
local_begin < global_end` holds, `local_end > global_end`. -/
theorem block_pair_right_clip (r : SpecificRange) (t T lb le last : Nat)
    (hT32 : T < 2 ^ 32) (ht : t < T)
    (hb : r.thread_beginnings[t]? = some lb)
    (he : r.thread_beginnings[t + 1]? = some le)
    (hl : r.thread_beginnings[T]? = some last)
    (hfast : ¬ (last = r.global_end ∧ r.global_begin = 0)) :
    (r.global_begin ≤ lb → lb < r.global_end → r.global_end < le →
      r.block_pair t T = some (lb, r.global_end)) ∧
    (SpecificRange.general_clause r.global_begin r.global_end lb le = Clause.rightClip ↔
      r.global_begin ≤ lb ∧ lb < r.global_end ∧ r.global_end < le) ∧
    (¬ (lb ≥ r.global_begin ∧ le ≤ r.global_end) →
      ¬ (le ≤ r.global_end ∧ le > r.global_begin) →
      (lb ≥ r.global_begin ∧ lb < r.global_end) → le > r.global_end) := by
  refine ⟨fun h1 h2 h3 => ?_, ?_, fun h1 h2 h3 => by omega⟩
  · rw [block_pair_reads r t T lb le last (by omega) hb he (by omega) hl, if_neg hfast]
    unfold SpecificRange.general_path
    rw [if_neg (by omega), if_neg (by omega), if_pos (by omega)]
  · unfold SpecificRange.general_clause
    split_ifs <;> simp <;> omega

/-- Witness of C5: table `[0, 3, 7, 10]`, request `(0, 5)`, thread 1 gets
`(3, 5)`. -/
theorem block_pair_right_clip_witness :
    (SpecificRange.mk 0 5 [0, 3, 7, 10]).block_pair 1 3 = some (3, 5) :=
  (block_pair_right_clip (SpecificRange.mk 0 5 [0, 3, 7, 10]) 1 3 3 7 10
    (by decide) (by decide) (by decide) (by decide) (by decide) (by decide)).1
    (by decide) (by decide) (by decide)

/-- C6: under the table invariant, for a thread `t < T` whose native slice
contains the requested range (`b[t] <= global_begin` and `b[t+1] >=
global_end`), `block_pair` returns `(global_begin, global_end)`, through the
fast path or through any branch of the general path. -/
theorem block_pair_both_sides (r : SpecificRange) (t T : Nat)
    (hT32 : T < 2 ^ 32) (hinv : TableInv r.thread_beginnings T) (ht : t < T)
    (h1 : r.thread_beginnings.getD t 0 ≤ r.global_begin)
    (h2 : r.thread_beginnings.getD (t + 1) 0 ≥ r.global_end) :
    r.block_pair t T = some (r.global_begin, r.global_end) := by
  rw [block_pair_of_inv r t T hT32 hinv ht]
  have hm := hinv.mono (i := t + 1) (j := T) (by omega) (le_refl T)
  have hn := hinv.2 t ht
  unfold SpecificRange.general_path
  split_ifs <;> simp only [Option.some.injEq, Prod.mk.injEq, and_true, true_and] <;> omega

/-- Witness of C6: table `[0, 3, 7, 10]`, request `(4, 6)`, thread 1 gets
`(4, 6)`. -/
theorem block_pair_both_sides_witness :
    (SpecificRange.mk 4 6 [0, 3, 7, 10]).block_pair 1 3 = some (4, 6) :=
  block_pair_both_sides (SpecificRange.mk 4 6 [0, 3, 7, 10]) 1 3
    (by decide) (by decide) (by decide) (by decide) (by decide)

/-- C7 as stated fails: the table `[0, 5, 5, 10]` is non-decreasing, the native
slice `[5, 5)` of thread 1 shares no position with the request `[3, 10)`, yet
`block_pair` returns `(5, 5)` and not `(10, 10)`. -/
theorem block_pair_no_overlap_counterexample :
    TableInv [0, 5, 5, 10] 3 ∧ 1 < 3 ∧ 3 ≤ 10 ∧
    (∀ p, ¬ (InPair p ([0, 5, 5, 10].getD 1 0, [0, 5, 5, 10].getD (1 + 1) 0) ∧
      InPair p (3, 10))) ∧
    (SpecificRange.mk 3 10 [0, 5, 5, 10]).block_pair 1 3 = some (5, 5) ∧
    (SpecificRange.mk 3 10 [0, 5, 5, 10]).block_pair 1 3 ≠ some (10, 10) := by
  refine ⟨by decide, by decide, by decide, ?_, by decide, by decide⟩
  intro p
  simp [InPair]

/-- C7, amended: under the table invariant, for `t < T` and `global_begin <=
global_end`, when the native slice of `t` shares no position with the requested
range, `block_pair` returns an empty range: `(b[t], b[t])` when the native
slice is itself empty and lies within `[global_begin, global_end]`, and
`(global_end, global_end)` in every other case, in particular whenever the
native slice is not empty. -/
theorem block_pair_no_overlap (r : SpecificRange) (t T : Nat)
    (hT32 : T < 2 ^ 32) (hinv : TableInv r.thread_beginnings T) (ht : t < T)
    (hg : r.global_begin ≤ r.global_end)
    (hdis : ∀ p, ¬ (InPair p (r.thread_beginnings.getD t 0, r.thread_beginnings.getD (t + 1) 0) ∧
      InPair p (r.global_begin, r.global_end))) :
    r.block_pair t T =
      some (if r.thread_beginnings.getD t 0 = r.thread_beginnings.getD (t + 1) 0 ∧
              r.global_begin ≤ r.thread_beginnings.getD t 0 ∧
              r.thread_beginnings.getD t 0 ≤ r.global_end then
            (r.thread_beginnings.getD t 0, r.thread_beginnings.getD t 0)
          else (r.global_end, r.global_end)) ∧
    (r.thread_beginnings.getD t 0 < r.thread_beginnings.getD (t + 1) 0 →
      r.block_pair t T = some (r.global_end, r.global_end)) := by
  have hm := hinv.mono (i := t + 1) (j := T) (by omega) (le_refl T)
  have hn := hinv.2 t ht
  have hd1 := hdis (r.thread_beginnings.getD t 0)
  have hd2 := hdis r.global_begin
  simp only [InPair] at hd1 hd2
  rw [block_pair_of_inv r t T hT32 hinv ht]
  unfold SpecificRange.general_path
  constructor
  · split_ifs <;> simp only [Option.some.injEq, Prod.mk.injEq, and_true, true_and] <;> omega
  · intro hne
    split_ifs <;> simp only [Option.some.injEq, Prod.mk.injEq, and_true, true_and] <;> omega

/-- Witness of the amended C7: table `[0, 3, 7, 10]`, request `(8, 10)`, thread
1 gets `(10, 10)`. -/
theorem block_pair_no_overlap_witness :
    (SpecificRange.mk 8 10 [0, 3, 7, 10]).block_pair 1 3 = some (10, 10) :=
  (block_pair_no_overlap (SpecificRange.mk 8 10 [0, 3, 7, 10]) 1 3
    (by decide) (by decide) (by decide) (by decide)
    (by intro p; simp [InPair]; omega)).2 (by decide)

/-- C8: for `T >= 1`, a table of `T + 1` entries and a thread `t < T` with
`b[t] <= b[t+1]`, if `b[T]` equals `global_end` and `global_begin` is `0`,
`block_pair` returns the native slice `(b[t], b[t+1])`. -/
theorem block_pair_fast_path (r : SpecificRange) (t T : Nat)
    (_hT : 1 ≤ T) (hT32 : T < 2 ^ 32)
    (hlen : r.thread_beginnings.length = T + 1) (ht : t < T)
    (hle : r.thread_beginnings.getD t 0 ≤ r.thread_beginnings.getD (t + 1) 0)
    (hend : r.thread_beginnings.getD T 0 = r.global_end)
    (hbeg : r.global_begin = 0) :
    r.block_pair t T =
      some (r.thread_beginnings.getD t 0, r.thread_beginnings.getD (t + 1) 0) := by
  have rd : ∀ i, i ≤ T → r.thread_beginnings[i]? = some (r.thread_beginnings.getD i 0) := by
    intro i hi
    have hlt : i < r.thread_beginnings.length := by rw [hlen]; omega
    simp [List.getD, List.getElem?_eq_getElem hlt]
  rw [block_pair_reads r t T _ _ _ (by omega) (rd t (by omega)) (rd (t + 1) (by omega)) hle
    (rd T (le_refl T)), if_pos ⟨hend, hbeg⟩]

/-- Witness of C8: table `[0, 3, 7, 10]`, request `(0, 10)`, thread 1 gets
`(3, 7)`. -/
theorem block_pair_fast_path_witness :
    (SpecificRange.mk 0 10 [0, 3, 7, 10]).block_pair 1 3 = some (3, 7) :=
  block_pair_fast_path (SpecificRange.mk 0 10 [0, 3, 7, 10]) 1 3
    (by decide) (by decide) (by decide) (by decide) (by decide) (by decide) (by decide)

end runtime

/-! ## The block partition -/

theorem block_part_start_closed (N num : Nat) :
    ∀ id : Nat, block_part_start N num id = id * (N / num) + min id (N % num) := by
  intro id
  induction id with
  | zero => simp [block_part_start]
  | succ k ih =>
    rw [block_part_start, ih, block_part_size, Nat.succ_mul]
    split_ifs <;> omega

theorem block_part_start_total (N num : Nat) (h : 1 ≤ num) :
    block_part_start N num num = N := by
  rw [block_part_start_closed]
  have h1 : N % num < num := Nat.mod_lt N (by omega)
  have h2 := Nat.div_add_mod N num
  omega

theorem block_part_start_mono (N num : Nat) {i j : Nat} (hij : i ≤ j) :
    block_part_start N num i ≤ block_part_start N num j := by
  induction j with
  | zero =>
    have : i = 0 := by omega
    subst this
    exact le_refl _
  | succ k ih =>
    rcases Nat.eq_or_lt_of_le hij with heq | hlt
    · rw [heq]
    · have := ih (by omega)
      rw [block_part_start]
      omega

theorem block_range_eq (b N id num : Nat) :
    block_range b (b + N) id num =
      (b + block_part_start N num id, b + block_part_start N num (id + 1)) := by
  simp only [block_range, Nat.add_sub_cancel_left, block_part_start, Nat.add_assoc]

namespace runtime

/-- The parts computed by `block_range` for the threads `0 .. num - 1` split
`[b, b + N)`. -/
theorem block_range_partition (b N num : Nat) (h : 1 ≤ num) :
    IsBlockPartition (fun t => galois.block_range b (b + N) t num) num b (b + N) := by
  have htot := galois.block_part_start_total N num h
  refine ⟨?_, ?_, ?_, ?_, ?_, ?_⟩
  · intro t _
    simp only [galois.block_range_eq]
    have := galois.block_part_start_mono N num (Nat.le_add_right t 1)
    omega
  · simp only [galois.block_range_eq, galois.block_part_start, Nat.add_zero]
  · intro t _
    simp only [galois.block_range_eq]
  · simp only [galois.block_range_eq]
    have : num - 1 + 1 = num := by omega
    rw [this, htot]
  · intro t1 t2 p h1 h2 m1 m2
    simp only [galois.block_range_eq, InPair] at m1 m2
    rcases Nat.lt_trichotomy t1 t2 with hlt | heq | hgt
    · have := galois.block_part_start_mono N num (i := t1 + 1) (j := t2) (by omega)
      omega
    · exact heq
    · have := galois.block_part_start_mono N num (i := t2 + 1) (j := t1) (by omega)
      omega
  · intro p
    simp only [galois.block_range_eq, InPair]
    constructor
    · rintro ⟨hp1, hp2⟩
      obtain ⟨t, ht, hs1, hs2⟩ :=
        table_locate_exists (fun i => b + galois.block_part_start N num i) p num
          (fun i _ => by
            have := galois.block_part_start_mono N num (Nat.le_add_right i 1)
            simp only
            omega)
          (by simp only [galois.block_part_start]; omega)
          (by simp only [htot]; omega)
      exact ⟨t, ht, hs1, hs2⟩
    · rintro ⟨t, ht, hs1, hs2⟩
      have := galois.block_part_start_mono N num (i := t + 1) (j := num) (by omega)
      omega

/-- The length of the part of thread `t`, in the two ways the specification
gives it. -/
theorem block_range_size (b N t num : Nat) (h : 1 ≤ num) :
    (galois.block_range b (b + N) t num).2 - (galois.block_range b (b + N) t num).1 =
      (if t < N % num then (N + num - 1) / num else N / num) ∧
    (galois.block_range b (b + N) t num).2 - (galois.block_range b (b + N) t num).1 =
      N / num + (if t < N % num then 1 else 0) := by
  have hsz0 : (galois.block_range b (b + N) t num).2 - (galois.block_range b (b + N) t num).1 =
      galois.block_part_size N num t := by
    simp only [galois.block_range_eq, galois.block_part_start]
    omega
  have hsz : (galois.block_range b (b + N) t num).2 - (galois.block_range b (b + N) t num).1 =
      N / num + (if t < N % num then 1 else 0) := hsz0
  refine ⟨?_, hsz⟩
  rw [hsz]
  split_ifs with hlt
  · have h1 : N % num < num := Nat.mod_lt N (by omega)
    have h2 := Nat.div_add_mod N num
    have h3 : num * (N / num + 1) = num * (N / num) + num := by
      rw [Nat.mul_add, Nat.mul_one]
    have h4 : N + num - 1 = num * (N / num + 1) + (N % num - 1) := by
      omega
    have h5 : (N % num - 1) / num = 0 := Nat.div_eq_of_lt (by omega)
    rw [h4, Nat.mul_add_div (by omega), h5]
  · rfl

/-! ## Claims on `StandardRange` and `LocalRange` -/

/-- C12 (against `block_range` as modelled from the specification): for every
`N` and every `T >= 1`, the `block_pair` results of a `StandardRange` over
`[b, b + N)`, in particular over `[0, N)`, and of a `LocalRange` over a
container of `N` elements, for the thread ids `0 .. T - 1`, are contiguous
half-open sub-ranges, pairwise disjoint, whose union is the whole range. -/
theorem block_pair_covers (N T : Nat) (hT : 1 ≤ T) :
    IsBlockPartition (fun t => (StandardRange.mk 0 N).block_pair t T) T 0 N ∧
    (∀ b, IsBlockPartition (fun t => (StandardRange.mk b (b + N)).block_pair t T) T b (b + N)) ∧
    (∀ c : Container, c.«end» = c.begin + N →
      IsBlockPartition (fun t => (LocalRange.mk c).block_pair t T) T c.begin c.«end») := by
  refine ⟨?_, fun b => block_range_partition b N T hT, fun c hc => ?_⟩
  · have := block_range_partition 0 N T hT
    simpa only [Nat.zero_add] using this
  · have := block_range_partition c.begin N T hT
    simpa only [LocalRange.block_pair, LocalRange.begin, LocalRange.«end», hc] using this

/-- Witness of C12: ten elements and three threads. -/
theorem block_pair_covers_witness :
    IsBlockPartition (fun t => (StandardRange.mk 0 10).block_pair t 3) 3 0 10 :=
  (block_pair_covers 10 3 (by decide)).1

/-- C13 (against `block_range` as modelled from the specification): for every
`N` and every `T >= 1`, the first `N mod T` threads get `ceil(N / T)` elements
and the others `floor(N / T)`, for a `StandardRange` and for a `LocalRange`, so
that the sizes of two parts differ by at most one. -/
theorem block_pair_balanced (N T : Nat) (hT : 1 ≤ T) :
    (∀ b t, t < T →
      (StandardRange.mk b (b + N)).block_end t T - (StandardRange.mk b (b + N)).block_begin t T =
        (if t < N % T then (N + T - 1) / T else N / T)) ∧
    (∀ b t1 t2, t1 < T → t2 < T →
      (StandardRange.mk b (b + N)).block_end t1 T - (StandardRange.mk b (b + N)).block_begin t1 T ≤
        (StandardRange.mk b (b + N)).block_end t2 T -
          (StandardRange.mk b (b + N)).block_begin t2 T + 1) ∧
    (∀ (c : Container) t, c.«end» = c.begin + N → t < T →
      ((LocalRange.mk c).block_pair t T).2 - ((LocalRange.mk c).block_pair t T).1 =
        (if t < N % T then (N + T - 1) / T else N / T)) ∧
    (∀ (c : Container) t1 t2, c.«end» = c.begin + N → t1 < T → t2 < T →
      ((LocalRange.mk c).block_pair t1 T).2 - ((LocalRange.mk c).block_pair t1 T).1 ≤
        ((LocalRange.mk c).block_pair t2 T).2 - ((LocalRange.mk c).block_pair t2 T).1 + 1) := by
  refine ⟨fun b t _ => (block_range_size b N t T hT).1, fun b t1 t2 _ _ => ?_,
    fun c t hc _ => ?_, fun c t1 t2 hc _ _ => ?_⟩
  · have h1 := (block_range_size b N t1 T hT).2
    have h2 := (block_range_size b N t2 T hT).2
    simp only [StandardRange.block_end, StandardRange.block_begin, StandardRange.block_pair]
    rw [h1, h2]
    split_ifs <;> omega
  · simp only [LocalRange.block_pair, LocalRange.begin, LocalRange.«end», hc]
    exact (block_range_size c.begin N t T hT).1
  · have h1 := (block_range_size c.begin N t1 T hT).2
    have h2 := (block_range_size c.begin N t2 T hT).2
    simp only [LocalRange.block_pair, LocalRange.begin, LocalRange.«end», hc]
    rw [h1, h2]
    split_ifs <;> omega

/-- Witness of C13: ten elements and three threads, thread 0 gets four
elements. -/
theorem block_pair_balanced_witness :
    (StandardRange.mk 0 (0 + 10)).block_end 0 3 - (StandardRange.mk 0 (0 + 10)).block_begin 0 3 =
      (if 0 < 10 % 3 then (10 + 3 - 1) / 3 else 10 / 3) :=
  (block_pair_balanced 10 3 (by decide)).1 0 0 (by decide)

/-- C14: for a `StandardRange`, `local_pair` is `block_pair`, `local_begin` and
`block_begin` are its first component, `local_end` and `block_end` its second,
and `begin` and `end` return the stored bounds. -/
theorem standard_range_local_is_block (r : StandardRange) (tid activeThreads : Nat) :
    r.local_pair tid activeThreads = r.block_pair tid activeThreads ∧
    r.local_begin tid activeThreads = r.block_begin tid activeThreads ∧
    r.block_begin tid activeThreads = (r.block_pair tid activeThreads).1 ∧
    r.local_end tid activeThreads = r.block_end tid activeThreads ∧
    r.block_end tid activeThreads = (r.block_pair tid activeThreads).2 ∧
    r.begin = r.ii ∧ r.«end» = r.ei ∧
    (∀ b e, (StandardRange.mk b e).begin = b ∧ (StandardRange.mk b e).«end» = e) :=
  ⟨rfl, rfl, rfl, rfl, rfl, rfl, rfl, fun _ _ => ⟨rfl, rfl⟩⟩

/-! ## Further claims on `SpecificRange::block_pair` -/

theorem general_path_eq_first_match (gb ge lb le : Nat) :
    SpecificRange.general_path gb ge lb le = spec_first_match spec_order gb ge lb le := by
  unfold SpecificRange.general_path spec_first_match spec_order
  by_cases h1 : lb ≥ gb ∧ le ≤ ge
  · rw [if_pos h1, List.find?_cons_of_pos _ (by simpa [Clause.holds] using h1)]
    rfl
  rw [if_neg h1, List.find?_cons_of_neg _ (by simpa [Clause.holds] using h1)]
  by_cases h2 : le ≤ ge ∧ le > gb
  · rw [if_pos h2, List.find?_cons_of_pos _ (by simpa [Clause.holds] using h2)]
    rfl
  rw [if_neg h2, List.find?_cons_of_neg _ (by simpa [Clause.holds] using h2)]
  by_cases h3 : lb ≥ gb ∧ lb < ge
  · rw [if_pos h3, List.find?_cons_of_pos _ (by simpa [Clause.holds] using h3)]
    rfl
  rw [if_neg h3, List.find?_cons_of_neg _ (by simpa [Clause.holds] using h3)]
  by_cases h4 : lb ≤ gb ∧ le ≥ ge
  · rw [if_pos h4, List.find?_cons_of_pos _ (by simpa [Clause.holds] using h4)]
    rfl
  rw [if_neg h4, List.find?_cons_of_neg _ (by simpa [Clause.holds] using h4)]
  rfl

/-- Two clip branches whose tests both hold, the `contained` test failing,
prescribe the same pair as the general path. -/
theorem general_path_eq_result (gb ge lb le : Nat) (c : Clause)
    (hc : c ∈ [Clause.leftClip, Clause.rightClip, Clause.bothSides])
    (h1 : Clause.contained.holds gb ge lb le = false)
    (h : c.holds gb ge lb le = true) :
    SpecificRange.general_path gb ge lb le = c.result gb ge lb le := by
  simp only [Clause.holds, decide_eq_false_iff_not] at h1
  simp only [List.mem_cons, List.mem_singleton, List.not_mem_nil, or_false] at hc
  unfold SpecificRange.general_path
  rcases hc with rfl | rfl | rfl <;>
    simp only [Clause.holds, decide_eq_true_eq] at h <;>
    simp only [Clause.result] <;>
    split_ifs <;>
    simp only [Prod.mk.injEq, and_true, true_and] <;>
    omega

/-- C15: under the table invariant, for `t < T` and `global_begin <=
global_end`, with `lo = max(b[t], global_begin)` and `hi = min(b[t+1],
global_end)`: if `lo < hi` then `block_pair` returns `(lo, hi)`, and otherwise
it returns a pair with two equal components. -/
theorem block_pair_is_intersection (r : SpecificRange) (t T : Nat)
    (hT32 : T < 2 ^ 32) (hinv : TableInv r.thread_beginnings T) (ht : t < T)
    (hg : r.global_begin ≤ r.global_end) :
    (max (r.thread_beginnings.getD t 0) r.global_begin <
        min (r.thread_beginnings.getD (t + 1) 0) r.global_end →
      r.block_pair t T =
        some (max (r.thread_beginnings.getD t 0) r.global_begin,
          min (r.thread_beginnings.getD (t + 1) 0) r.global_end)) ∧
    (¬ (max (r.thread_beginnings.getD t 0) r.global_begin <
        min (r.thread_beginnings.getD (t + 1) 0) r.global_end) →
      ∃ x, r.block_pair t T = some (x, x)) := by
  have hm := hinv.mono (i := t + 1) (j := T) (by omega) (le_refl T)
  have hn := hinv.2 t ht
  rw [block_pair_of_inv r t T hT32 hinv ht]
  unfold SpecificRange.general_path
  constructor
  · intro hlt
    split_ifs <;> simp only [Option.some.injEq, Prod.mk.injEq] <;> omega
  · intro hnlt
    split_ifs
    · exact ⟨r.thread_beginnings.getD t 0, by
        simp only [Option.some.injEq, Prod.mk.injEq, true_and]; omega⟩
    · exact ⟨r.thread_beginnings.getD t 0, by
        simp only [Option.some.injEq, Prod.mk.injEq, true_and]; omega⟩
    · exact ⟨r.global_begin, by
        simp only [Option.some.injEq, Prod.mk.injEq, true_and]; omega⟩
    · exact ⟨r.global_end, by
        simp only [Option.some.injEq, Prod.mk.injEq, and_true]; omega⟩
    · exact ⟨r.global_end, by
        simp only [Option.some.injEq, Prod.mk.injEq, and_true]; omega⟩
    · exact ⟨r.global_end, rfl⟩

/-- Witness of C15: table `[0, 3, 7, 10]`, request `(5, 10)`, thread 1 gets
`(max 3 5, min 7 10)`. -/
theorem block_pair_is_intersection_witness :
    (SpecificRange.mk 5 10 [0, 3, 7, 10]).block_pair 1 3 = some (5, 7) :=
  (block_pair_is_intersection (SpecificRange.mk 5 10 [0, 3, 7, 10]) 1 3
    (by decide) (by decide) (by decide) (by decide)).1 (by decide)

/-- C16: when the fast-path test fails, `block_pair` returns the pair of the
first branch whose test holds, in the order contained, left clip, right clip,
both sides, no overlap; and the order can be observed: on the table
`[0, 3, 7, 10]` with the request `(2, 10)`, thread 1 passes both the
`contained` test and the left-clip test, which prescribe `(3, 7)` and `(2, 7)`,
and `block_pair` returns the former. -/
theorem block_pair_first_match_wins (r : SpecificRange) (t T lb le last : Nat)
    (hT32 : T < 2 ^ 32) (ht : t < T)
    (hb : r.thread_beginnings[t]? = some lb)
    (he : r.thread_beginnings[t + 1]? = some le)
    (hle : lb ≤ le)
    (hl : r.thread_beginnings[T]? = some last)
    (hfast : ¬ (last = r.global_end ∧ r.global_begin = 0)) :
    r.block_pair t T = some (spec_first_match spec_order r.global_begin r.global_end lb le) ∧
    (∃ (r2 : SpecificRange) (t2 T2 : Nat) (c1 c2 : Clause),
      T2 < 2 ^ 32 ∧ TableInv r2.thread_beginnings T2 ∧ t2 < T2 ∧
      ¬ (r2.thread_beginnings.getD T2 0 = r2.global_end ∧ r2.global_begin = 0) ∧
      c1 ≠ c2 ∧ c1 ≠ Clause.noOverlap ∧ c2 ≠ Clause.noOverlap ∧
      c1.holds r2.global_begin r2.global_end (r2.thread_beginnings.getD t2 0)
        (r2.thread_beginnings.getD (t2 + 1) 0) = true ∧
      c2.holds r2.global_begin r2.global_end (r2.thread_beginnings.getD t2 0)
        (r2.thread_beginnings.getD (t2 + 1) 0) = true ∧
      c1.result r2.global_begin r2.global_end (r2.thread_beginnings.getD t2 0)
          (r2.thread_beginnings.getD (t2 + 1) 0) ≠
        c2.result r2.global_begin r2.global_end (r2.thread_beginnings.getD t2 0)
          (r2.thread_beginnings.getD (t2 + 1) 0) ∧
      r2.block_pair t2 T2 =
        some (c1.result r2.global_begin r2.global_end (r2.thread_beginnings.getD t2 0)
          (r2.thread_beginnings.getD (t2 + 1) 0))) := by
  constructor
  · rw [block_pair_reads r t T lb le last (by omega) hb he hle hl, if_neg hfast,
      general_path_eq_first_match]
  · exact ⟨SpecificRange.mk 2 10 [0, 3, 7, 10], 1, 3, Clause.contained, Clause.leftClip,
      by decide, by decide, by decide, by decide, by decide, by decide, by decide,
      by decide, by decide, by decide, by decide⟩

/-- Witness of C16: table `[0, 3, 7, 10]`, request `(2, 10)`, thread 1: the
first branch whose test holds is `contained`. -/
theorem block_pair_first_match_wins_witness :
    (SpecificRange.mk 2 10 [0, 3, 7, 10]).block_pair 1 3 =
      some (spec_first_match spec_order 2 10 3 7) :=
  (block_pair_first_match_wins (SpecificRange.mk 2 10 [0, 3, 7, 10]) 1 3 3 7 10
    (by decide) (by decide) (by decide) (by decide) (by decide) (by decide) (by decide)).1

/-- C17: for all values of the four bounds, if the `contained` test fails the
left-clip and right-clip tests do not hold together; when the both-sides test
holds together with the left-clip or the right-clip test the two branches
prescribe the same pair; and testing the three clip branches in any order after
`contained` gives the result of the order of the source. -/
theorem clip_order_is_immaterial (gb ge lb le : Nat) :
    (Clause.contained.holds gb ge lb le = false →
      ¬ (Clause.leftClip.holds gb ge lb le = true ∧ Clause.rightClip.holds gb ge lb le = true)) ∧
    (Clause.bothSides.holds gb ge lb le = true → Clause.leftClip.holds gb ge lb le = true →
      Clause.bothSides.result gb ge lb le = Clause.leftClip.result gb ge lb le) ∧
    (Clause.bothSides.holds gb ge lb le = true → Clause.rightClip.holds gb ge lb le = true →
      Clause.bothSides.result gb ge lb le = Clause.rightClip.result gb ge lb le) ∧
    (∀ order : List Clause,
      order.Perm [Clause.leftClip, Clause.rightClip, Clause.bothSides] →
      spec_first_match (Clause.contained :: (order ++ [Clause.noOverlap])) gb ge lb le =
        SpecificRange.general_path gb ge lb le) := by
  refine ⟨?_, ?_, ?_, ?_⟩
  · simp only [Clause.holds, decide_eq_false_iff_not, decide_eq_true_eq]
    omega
  · simp only [Clause.holds, decide_eq_true_eq, Clause.result, Prod.mk.injEq, true_and]
    omega
  · simp only [Clause.holds, decide_eq_true_eq, Clause.result, Prod.mk.injEq, and_true]
    omega
  · intro order hperm
    unfold spec_first_match
    cases h1 : Clause.contained.holds gb ge lb le with
    | true =>
      rw [List.find?_cons_of_pos _ (by simpa using h1)]
      have h1a : lb ≥ gb ∧ le ≤ ge := by simpa [Clause.holds] using h1
      simp only [Clause.result, SpecificRange.general_path, if_pos h1a]
    | false =>
      rw [List.find?_cons_of_neg _ (by simp [h1]), List.find?_append]
      cases hf : order.find? (fun c => c.holds gb ge lb le) with
      | some c =>
        have hmem : c ∈ order := List.mem_of_find?_eq_some hf
        have hc : c.holds gb ge lb le = true := by
          simpa using List.find?_some hf
        simp only [Option.or_some]
        exact (general_path_eq_result gb ge lb le c (hperm.mem_iff.1 hmem) h1 hc).symm
      | none =>
        have hall := List.find?_eq_none.1 hf
        have hl := hall Clause.leftClip (hperm.mem_iff.2 (by simp))
        have hr := hall Clause.rightClip (hperm.mem_iff.2 (by simp))
        have hb := hall Clause.bothSides (hperm.mem_iff.2 (by simp))
        simp only [Clause.holds, decide_eq_true_eq, decide_eq_false_iff_not] at hl hr hb h1
        have hno : List.find? (fun c => c.holds gb ge lb le) [Clause.noOverlap] =
            some Clause.noOverlap := rfl
        simp only [Option.none_or, hno, Clause.result, SpecificRange.general_path, if_neg h1,
          if_neg hl, if_neg hr, if_neg hb]

/-- C18: under the table invariant, for `t < T`, whenever `b[T] == global_end`
and `global_begin == 0` the case analysis of the general path takes its
`contained` branch and yields `(b[t], b[t+1])`, the pair of the fast path; so
`block_pair` is the general path on every such input, fast path or not. -/
theorem fast_path_is_shortcut (r : SpecificRange) (t T : Nat)
    (hT32 : T < 2 ^ 32) (hinv : TableInv r.thread_beginnings T) (ht : t < T) :
    ((r.thread_beginnings.getD T 0 = r.global_end ∧ r.global_begin = 0) →
      SpecificRange.general_clause r.global_begin r.global_end
          (r.thread_beginnings.getD t 0) (r.thread_beginnings.getD (t + 1) 0) =
        Clause.contained ∧
      SpecificRange.general_path r.global_begin r.global_end
          (r.thread_beginnings.getD t 0) (r.thread_beginnings.getD (t + 1) 0) =
        (r.thread_beginnings.getD t 0, r.thread_beginnings.getD (t + 1) 0)) ∧
    r.block_pair t T =
      some (SpecificRange.general_path r.global_begin r.global_end
        (r.thread_beginnings.getD t 0) (r.thread_beginnings.getD (t + 1) 0)) := by
  have hm := hinv.mono (i := t + 1) (j := T) (by omega) (le_refl T)
  have key : (r.thread_beginnings.getD T 0 = r.global_end ∧ r.global_begin = 0) →
      (r.thread_beginnings.getD t 0 ≥ r.global_begin ∧
        r.thread_beginnings.getD (t + 1) 0 ≤ r.global_end) := by
    intro h
    omega
  refine ⟨fun h => ?_, ?_⟩
  · unfold SpecificRange.general_clause SpecificRange.general_path
    rw [if_pos (key h), if_pos (key h)]
    exact ⟨rfl, rfl⟩
  · rw [block_pair_of_inv r t T hT32 hinv ht]
    split_ifs with h
    · unfold SpecificRange.general_path
      rw [if_pos (key h)]
    · rfl

/-- Witness of C18: table `[0, 3, 7, 10]`, request `(0, 10)`, thread 1. -/
theorem fast_path_is_shortcut_witness :
    (SpecificRange.mk 0 10 [0, 3, 7, 10]).block_pair 1 3 =
      some (SpecificRange.general_path 0 10 3 7) :=
  (fast_path_is_shortcut (SpecificRange.mk 0 10 [0, 3, 7, 10]) 1 3
    (by decide) (by decide) (by decide)).2

/-- C19: for `T >= 1`, a table of exactly `T + 1` non-decreasing entries and
`t < T`, the reads of `block_pair` at `t`, `t + 1` and `T` are inside the
table, the assertion `local_begin <= local_end` holds, and `block_pair`
returns a pair. -/
theorem block_pair_is_safe (r : SpecificRange) (t T : Nat)
    (_hT : 1 ≤ T) (hT32 : T < 2 ^ 32) (hinv : TableInv r.thread_beginnings T) (ht : t < T) :
    t < r.thread_beginnings.length ∧
    (t + 1) % 2 ^ 32 = t + 1 ∧
    (t + 1) % 2 ^ 32 < r.thread_beginnings.length ∧
    T < r.thread_beginnings.length ∧
    r.thread_beginnings.getD t 0 ≤ r.thread_beginnings.getD ((t + 1) % 2 ^ 32) 0 ∧
    (∃ pr, r.block_pair t T = some pr) := by
  have hmod : (t + 1) % 2 ^ 32 = t + 1 := Nat.mod_eq_of_lt (by omega)
  have hlen := hinv.1
  rw [hmod]
  refine ⟨by omega, rfl, by omega, by omega, hinv.2 t ht, ?_⟩
  rw [block_pair_of_inv r t T hT32 hinv ht]
  split_ifs
  · exact ⟨_, rfl⟩
  · exact ⟨_, rfl⟩

/-- Witness of C19: table `[0, 3, 7, 10]`, request `(5, 10)`, thread 2. -/
theorem block_pair_is_safe_witness :
    ∃ pr, (SpecificRange.mk 5 10 [0, 3, 7, 10]).block_pair 2 3 = some pr :=
  (block_pair_is_safe (SpecificRange.mk 5 10 [0, 3, 7, 10]) 2 3
    (by decide) (by decide) (by decide) (by decide)).2.2.2.2.2

/-- C20: under the table invariant, for `t < T` and `global_begin <=
global_end`, the pair `(first, second)` returned by `block_pair` satisfies
`global_begin <= first <= second <= global_end`. -/
theorem block_pair_within_request (r : SpecificRange) (t T : Nat)
    (hT32 : T < 2 ^ 32) (hinv : TableInv r.thread_beginnings T) (ht : t < T)
    (hg : r.global_begin ≤ r.global_end) :
    ∃ pr, r.block_pair t T = some pr ∧
      r.global_begin ≤ pr.1 ∧ pr.1 ≤ pr.2 ∧ pr.2 ≤ r.global_end := by
  have hm := hinv.mono (i := t + 1) (j := T) (by omega) (le_refl T)
  have hn := hinv.2 t ht
  rw [block_pair_of_inv r t T hT32 hinv ht]
  unfold SpecificRange.general_path
  split_ifs <;> refine ⟨_, rfl, ?_⟩ <;> simp only <;> omega

/-- Witness of C20: table `[0, 3, 7, 10]`, request `(4, 6)`, thread 1. -/
theorem block_pair_within_request_witness :
    ∃ pr, (SpecificRange.mk 4 6 [0, 3, 7, 10]).block_pair 1 3 = some pr ∧
      4 ≤ pr.1 ∧ pr.1 ≤ pr.2 ∧ pr.2 ≤ 6 :=
  block_pair_within_request (SpecificRange.mk 4 6 [0, 3, 7, 10]) 1 3
    (by decide) (by decide) (by decide) (by decide)

end runtime
end galois

namespace Galois
namespace WorkList

/-! ## The contents of the worklist after each method -/

theorem GFIFO.push_items {T : Type} (q : GFIFO T) (val : T) :
    (q.push val).wl.items = q.wl.items ++ [val] := rfl

theorem GFIFO.push_range_items {T : Type} (xs : List T) :
    ∀ q : GFIFO T, (q.push_range xs).wl.items = q.wl.items ++ xs := by
  induction xs with
  | nil => intro q; simp [GFIFO.push_range]
  | cons x rest ih =>
    intro q
    rw [GFIFO.push_range, ih]
    simp [gdeque.push_back]

theorem GFIFO.push_each_items {T : Type} (xs : List T) :
    ∀ q : GFIFO T, (q.push_each xs).wl.items = q.wl.items ++ xs := by
  induction xs with
  | nil => intro q; simp [GFIFO.push_each]
  | cons x rest ih =>
    intro q
    have h := ih (q.push x)
    simp only [GFIFO.push_each, List.foldl_cons] at h ⊢
    rw [h, GFIFO.push_items]
    simp

theorem GFIFO.pop_nil {T : Type} (q : GFIFO T) (h : q.wl.items = []) :
    q.pop = (none, q) := by
  simp [GFIFO.pop, gdeque.empty, h]

theorem GFIFO.pop_cons {T : Type} (q : GFIFO T) (x : T) (rest : List T)
    (h : q.wl.items = x :: rest) :
    q.pop = (some x, { wl := { items := rest } }) := by
  simp [GFIFO.pop, gdeque.empty, gdeque.front, gdeque.pop_front, h]

theorem GFIFO.pop_times_append {T : Type} (xs ys : List T) :
    ∀ q : GFIFO T, q.wl.items = xs ++ ys →
      q.pop_times xs.length = (xs.map some, { wl := { items := ys } }) := by
  induction xs with
  | nil =>
    intro q h
    cases q with
    | mk wl =>
      cases wl with
      | mk items =>
        simp only [List.nil_append] at h
        subst h
        rfl
  | cons x rest ih =>
    intro q h
    have hp := GFIFO.pop_cons q x (rest ++ ys) h
    simp only [List.length_cons, GFIFO.pop_times, hp, List.map_cons]
    rw [ih { wl := { items := rest ++ ys } } rfl]

theorem GFIFO.run_perm {T : Type} (ops : List (Op T)) :
    ∀ q : GFIFO T,
      (q.wl.items ++ pushed_items ops).Perm ((q.run ops).1 ++ (q.run ops).2.wl.items) := by
  induction ops with
  | nil => intro q; simp [pushed_items, GFIFO.run]
  | cons op ops ih =>
    intro q
    have hcons : pushed_items (op :: ops) = op.pushed ++ pushed_items ops := by
      simp [pushed_items]
    rw [hcons]
    cases op with
    | push val =>
      have h := ih (q.push val)
      rw [GFIFO.push_items] at h
      simpa [GFIFO.run, GFIFO.step, Op.pushed] using h
    | push_range xs =>
      have h := ih (q.push_range xs)
      rw [GFIFO.push_range_items] at h
      simpa [GFIFO.run, GFIFO.step, Op.pushed] using h
    | pop =>
      cases hq : q.wl.items with
      | nil =>
        have h := ih q
        rw [hq] at h
        simpa [GFIFO.run, GFIFO.step, Op.pushed, GFIFO.pop_nil q hq] using h
      | cons x rest =>
        have h := ih { wl := { items := rest } }
        simpa [GFIFO.run, GFIFO.step, Op.pushed, GFIFO.pop_cons q x rest hq] using h

theorem GFIFO.push_initial_all_skip {T : Type} (range : List T) (tids : List Nat) :
    ∀ q : GFIFO T, 0 ∉ tids → q.push_initial_all range tids = q := by
  induction tids with
  | nil => intro q _; rfl
  | cons tid rest ih =>
    intro q h
    have h1 : tid ≠ 0 := fun e => h (by simp [e])
    have h2 : 0 ∉ rest := fun e => h (by simp [e])
    have h3 := ih q h2
    simp only [GFIFO.push_initial_all, List.foldl_cons, GFIFO.push_initial, if_neg h1] at h3 ⊢
    exact h3

theorem GFIFO.push_initial_all_once {T : Type} (range : List T) (tids : List Nat) :
    ∀ q : GFIFO T, tids.Nodup → 0 ∈ tids →
      (q.push_initial_all range tids).wl.items = q.wl.items ++ range := by
  induction tids with
  | nil => intro q _ h; simp at h
  | cons tid rest ih =>
    intro q hnd hmem
    have hnd2 := List.nodup_cons.1 hnd
    by_cases h0 : tid = 0
    · subst h0
      have h3 := GFIFO.push_initial_all_skip range rest (q.push_range range) hnd2.1
      simp only [GFIFO.push_initial_all, List.foldl_cons, GFIFO.push_initial, if_true] at h3 ⊢
      rw [h3, GFIFO.push_range_items]
    · have hmem2 : 0 ∈ rest := by
        rcases List.mem_cons.1 hmem with e | e
        · exact absurd e.symm h0
        · exact e
      have h3 := ih q hnd2.2 hmem2
      simp only [GFIFO.push_initial_all, List.foldl_cons, GFIFO.push_initial, if_neg h0] at h3 ⊢
      exact h3

/-! ## Claims on `GFIFO` -/

/-- C2: after the items of `xs` are pushed one by one onto an empty worklist,
the next `length xs` calls of `pop` return the items of `xs` in push order and
empty the worklist, and the call of `pop` after them returns nothing. -/
theorem gfifo_first_in_first_out {T : Type} (xs : List T) :
    ((GFIFO.init.push_each xs).pop_times xs.length).1 = xs.map some ∧
    ((GFIFO.init.push_each xs).pop_times xs.length).2 = GFIFO.init ∧
    (((GFIFO.init.push_each xs).pop_times xs.length).2.pop).1 = none := by
  have h := GFIFO.pop_times_append xs [] (GFIFO.init.push_each xs)
    (by rw [GFIFO.push_each_items]; simp [GFIFO.init])
  rw [h]
  exact ⟨rfl, rfl, rfl⟩

/-- C3: for every sequence of `push`, bulk `push` and `pop` calls run on an
empty worklist, the multiset of pushed items is the multiset of popped items
plus the multiset of stored items; so the popped items are among the pushed
ones, with multiplicity, and every pushed item was popped or is still stored. -/
theorem gfifo_conserves_items {T : Type} (ops : List (Op T)) :
    ((pushed_items ops : List T) : Multiset T) =
      ((GFIFO.init.run ops).1 : Multiset T) + ((GFIFO.init.run ops).2.wl.items : Multiset T) ∧
    ((GFIFO.init.run ops).1 : Multiset T) ≤ (pushed_items ops : Multiset T) ∧
    (∀ x, x ∈ pushed_items ops →
      x ∈ (GFIFO.init.run ops).1 ∨ x ∈ (GFIFO.init.run ops).2.wl.items) := by
  have h := GFIFO.run_perm ops (GFIFO.init : GFIFO T)
  simp only [GFIFO.init, List.nil_append] at h
  have heq : ((pushed_items ops : List T) : Multiset T) =
      ((GFIFO.init.run ops).1 : Multiset T) +
        ((GFIFO.init.run ops).2.wl.items : Multiset T) := by
    rw [Multiset.coe_add]
    exact Multiset.coe_eq_coe.2 h
  refine ⟨heq, ?_, ?_⟩
  · rw [heq]
    exact Multiset.le_add_right _ _
  · intro x hx
    have := (h.mem_iff (a := x)).1 hx
    simpa [GFIFO.init] using this

/-- C9: `pop` returns nothing exactly when the worklist is empty, and then
leaves it as it was; on a worklist `x :: rest` it returns `x` and leaves
`rest`. -/
theorem gfifo_pop_reports_empty {T : Type} (q : GFIFO T) :
    ((q.pop).1 = none ↔ q.wl.items = []) ∧
    (q.wl.items = [] → q.pop = (none, q)) ∧
    (∀ x rest, q.wl.items = x :: rest → q.pop = (some x, { wl := { items := rest } })) := by
  refine ⟨?_, GFIFO.pop_nil q, GFIFO.pop_cons q⟩
  cases hq : q.wl.items with
  | nil => simp [GFIFO.pop_nil q hq]
  | cons x rest => simp [GFIFO.pop_cons q x rest hq]

/-- C10: for `N >= 1`, when `push_initial range` is called once for each
thread id of `0 .. N-1`, in any order, the worklist ends as its previous
contents followed by the items of `range`; a call with a thread id other than
`0` changes nothing and the call with thread id `0` is the bulk push. -/
theorem gfifo_push_initial_seeds_once {T : Type} (N : Nat) (hN : 1 ≤ N) (q : GFIFO T)
    (range : List T) (tids : List Nat) (hperm : tids.Perm (List.range N)) :
    (q.push_initial_all range tids).wl.items = q.wl.items ++ range ∧
    (∀ tid, tid ≠ 0 → q.push_initial tid range = q) ∧
    q.push_initial 0 range = q.push_range range := by
  refine ⟨?_, ?_, ?_⟩
  · apply GFIFO.push_initial_all_once
    · exact hperm.nodup_iff.2 (List.nodup_range N)
    · exact hperm.mem_iff.2 (List.mem_range.2 (by omega))
  · intro tid h
    simp [GFIFO.push_initial, h]
  · simp [GFIFO.push_initial]

/-- Witness of C10: three threads calling in the order `2, 0, 1` on a worklist
holding `7`, with the range `1, 2`. -/
theorem gfifo_push_initial_seeds_once_witness :
    ((GFIFO.mk (gdeque.mk [7])).push_initial_all [1, 2] [2, 0, 1]).wl.items = [7, 1, 2] :=
  (gfifo_push_initial_seeds_once 3 (by decide) (GFIFO.mk (gdeque.mk [7])) [1, 2] [2, 0, 1]
    (by decide)).1

/-- C11: the bulk `push` of `[begin, end)` leaves the worklist as pushing its
items one call at a time does, that is with the items appended in order to the
previous contents; the bulk push of an empty span changes nothing. -/
theorem gfifo_bulk_push_is_repeated_push {T : Type} (q : GFIFO T) (xs : List T) :
    q.push_range xs = q.push_each xs ∧
    (q.push_range xs).wl.items = q.wl.items ++ xs ∧
    q.push_range xs = { wl := { items := q.wl.items ++ xs } } ∧
    q.push_range [] = q := by
  have h1 := GFIFO.push_range_items xs q
  have h2 := GFIFO.push_each_items xs q
  have ext : ∀ a b : GFIFO T, a.wl.items = b.wl.items → a = b := by
    intro a b h
    cases a with
    | mk wa =>
      cases b with
      | mk wb =>
        cases wa
        cases wb
        simp only at h
        rw [h]
  exact ⟨ext _ _ (h1.trans h2.symm), h1, ext _ _ h1, rfl⟩

end WorkList
end Galois
